import Mathlib

/-!
Verification of the weighted roulette sampler (src/main.js).

The JavaScript core is embedded shallowly:

* A JavaScript number is modelled by `JSNum`: either `NaN` or an exact
  rational value.  Addition, subtraction, multiplication and division
  propagate `NaN`; the comparison operators `<` and `<=` are `false`
  whenever an operand is `NaN`, exactly as in IEEE/JS semantics.
  (Rounding of binary floating point is not modelled; the claims under
  study are about control flow, `NaN` propagation and exact interval
  arithmetic, not about rounding error.)
* `Math.random()` is modelled by an explicit draw `u : ℚ` supplied by the
  caller; every reachable execution of `weightedRandom` consumes exactly
  one draw (either in the uniform branch or in the weighted branch), so a
  single parameter is faithful.
* A JavaScript plain object used as a string-keyed map is modelled by an
  association list `List (String × ℕ)` with insertion-order keys
  (`objGet` / `objSet`).
-/

namespace Roulette

/-- A JavaScript number: `NaN` or an exact rational value. -/
inductive JSNum where
  | nan : JSNum
  | num : ℚ → JSNum
deriving DecidableEq

/-- JS `+` on numbers: any `NaN` operand gives `NaN`. -/
def JSNum.add : JSNum → JSNum → JSNum
  | .num a, .num b => .num (a + b)
  | _, _ => .nan

/-- JS binary `-` on numbers: any `NaN` operand gives `NaN`. -/
def JSNum.sub : JSNum → JSNum → JSNum
  | .num a, .num b => .num (a - b)
  | _, _ => .nan

/-- JS `*` on numbers: any `NaN` operand gives `NaN`. -/
def JSNum.mul : JSNum → JSNum → JSNum
  | .num a, .num b => .num (a * b)
  | _, _ => .nan

/-- JS `/` on numbers, at non-zero denominators (the only reachable use,
`item.weight / totalWeight`, has `totalWeight > 0`); a `NaN` operand gives
`NaN`. -/
def JSNum.div : JSNum → JSNum → JSNum
  | .num a, .num b => .num (a / b)
  | _, _ => .nan

/-- JS `<`: `false` whenever an operand is `NaN`. -/
def JSNum.lt : JSNum → JSNum → Bool
  | .num a, .num b => decide (a < b)
  | _, _ => false

/-- JS `<=`: `false` whenever an operand is `NaN`. -/
def JSNum.le : JSNum → JSNum → Bool
  | .num a, .num b => decide (a ≤ b)
  | _, _ => false

/-- One roulette option as passed to the core: `{ name, weight }`
(src/main.js line 5). -/
structure Item where
  name : String
  weight : JSNum
deriving DecidableEq

/-- `items.reduce((sum, item) => sum + item.weight, 0)`
(src/main.js line 13; recomputed at lines 199 and 264). -/
def sumW (items : List Item) : JSNum :=
  items.foldl (fun sum it => JSNum.add sum it.weight) (JSNum.num 0)

/-- The `for (const item of items)` loop of src/main.js lines 22-27:
subtract each weight from the running value `r`, return the first item at
which the running value goes negative, `none` when the loop exhausts. -/
def findCross : List Item → JSNum → Option Item
  | [], _ => none
  | it :: rest, r =>
    let r2 := JSNum.sub r it.weight
    if JSNum.lt r2 (JSNum.num 0) then some it else findCross rest r2

/-- `weightedRandom(items)` of src/main.js lines 8-31, with the single
`Math.random()` draw `u` made explicit.  The uniform branch indexes at
`Math.floor(u * items.length)`; the weighted branch scans with
`u * totalWeight` and falls back to `items[items.length - 1]`. -/
def weightedRandom (items : List Item) (u : ℚ) : Option Item :=
  if items.length = 0 then none
  else
    let totalWeight := sumW items
    if JSNum.le totalWeight (JSNum.num 0) then
      items[(Int.toNat ⌊u * (items.length : ℚ)⌋)]?
    else
      match findCross items (JSNum.mul (JSNum.num u) totalWeight) with
      | some it => some it
      | none => items[(items.length - 1)]?

/-- The `!items ||` null/undefined guard of src/main.js line 9: an absent
argument is modelled by `none`. -/
def weightedRandomJS : Option (List Item) → ℚ → Option Item
  | none, _ => none
  | some items, u => weightedRandom items u

/-- An option row as held by the presentation layer before normalization:
its `weight` is whatever number (possibly `NaN`) the UI stored. -/
structure RawOption where
  name : String
  weight : JSNum
deriving DecidableEq

/-- Truncation toward zero of a rational, as `parseInt` performs on the
decimal rendering of a number.  (Magnitudes that JS would render in
exponent notation, `|x| ≥ 1e21` or `0 < |x| < 1e-6`, are outside the
model; the weights the UI stores are integers or `NaN`.) -/
def jsTrunc (q : ℚ) : ℤ :=
  if 0 ≤ q then ⌊q⌋ else -⌊-q⌋

/-- `parseInt(x, 10)` on a number argument: `NaN` stays `NaN`, otherwise
the decimal rendering is truncated to an integer. -/
def jsParseInt : JSNum → JSNum
  | .nan => .nan
  | .num q => .num (jsTrunc q)

/-- `x || 1`: `1` when `x` is falsy, i.e. `NaN` or `0`. -/
def jsOr1 : JSNum → JSNum
  | .nan => .num 1
  | .num q => if q = 0 then .num 1 else .num q

/-- `options.map(opt => ({ name: opt.name, weight: parseInt(opt.weight, 10) || 1 }))`
(src/main.js lines 181-184 in `spin`, lines 241-244 in `runSimulation`). -/
def normalizeItems (opts : List RawOption) : List Item :=
  opts.map (fun o => ⟨o.name, jsOr1 (jsParseInt o.weight)⟩)

/-- Reading `m[k]` from a JS object modelled as an insertion-ordered
association list. -/
def objGet (m : List (String × ℕ)) (k : String) : Option ℕ :=
  (m.find? (fun p => p.1 == k)).map (fun p => p.2)

/-- Writing `m[k] = v`: overwrite in place when the key exists, append
otherwise (JS objects keep string keys in insertion order). -/
def objSet (m : List (String × ℕ)) (k : String) (v : ℕ) : List (String × ℕ) :=
  if m.any (fun p => p.1 == k) then
    m.map (fun p => if p.1 == k then (k, v) else p)
  else
    m ++ [(k, v)]

/-- `items.forEach(item => { results[item.name] = 0; })`
(src/main.js lines 252-254). -/
def initTally (items : List Item) : List (String × ℕ) :=
  items.foldl (fun m it => objSet m it.name 0) []

/-- One loop iteration of src/main.js lines 256-261: sample a winner and
increment its tally.  `results[winner.name]++` always finds an existing
key (the winner is one of `items`, whose names were all initialized), so
the missing-key case is modelled as a no-op. -/
def simStep (items : List Item) (m : List (String × ℕ)) (u : ℚ) :
    List (String × ℕ) :=
  match weightedRandom items u with
  | some w =>
    match objGet m w.name with
    | some n => objSet m w.name (n + 1)
    | none => m
  | none => m

/-- The trial-runner core of `runSimulation` (src/main.js lines 246-261):
the `< 2` precondition check, tally initialization and the trial loop;
`none` models the `alert`-and-return path.  `us` lists the `Math.random()`
draws of the successive trials. -/
def runTrials (items : List Item) (us : List ℚ) :
    Option (List (String × ℕ)) :=
  if items.length < 2 then none
  else some (us.foldl (simStep items) (initTally items))

/-- `runSimulation` (src/main.js lines 239-261): normalize the option
rows, then run the trials. -/
def runSimulation (opts : List RawOption) (us : List ℚ) :
    Option (List (String × ℕ)) :=
  runTrials (normalizeItems opts) us

/-- The theoretical percentage displayed for `name` by src/main.js lines
269-273: `totalWeight > 0 ? item.weight / totalWeight * 100 : 100 / items.length`
where `item = items.find(it => it.name === name)`.  `none` models the
lookup failing (unreachable from the display loop, whose names are all
item names). -/
def theoreticalPct (items : List Item) (nm : String) : Option JSNum :=
  let totalWeight := sumW items
  (items.find? (fun it => it.name == nm)).map (fun it =>
    if JSNum.lt (JSNum.num 0) totalWeight then
      JSNum.mul (JSNum.div it.weight totalWeight) (JSNum.num 100)
    else
      JSNum.num (100 / (items.length : ℚ)))

/-! ### Specification-side functions

These follow the spec's vocabulary (prefix sums, first crossing index)
and are related to the embedded code by the theorems below. -/

/-- Cumulative weight prefix-sum: the sum of the first `n` weights. -/
def cumW (ws : List ℚ) (n : ℕ) : ℚ :=
  (ws.take n).sum

/-- The index the subtract-until-negative scan stops at: the smallest `i`
with `cumW ws (i+1) > r`, or `ws.length` when no prefix-sum exceeds `r`. -/
def crossIdx : List ℚ → ℚ → ℕ
  | [], _ => 0
  | w :: ws, r => if r - w < 0 then 0 else crossIdx ws (r - w) + 1

/-- Items with exact rational weights, for claims that quantify over
lists whose weights are numeric. -/
def itemsOf (l : List (String × ℚ)) : List Item :=
  l.map (fun p => ⟨p.1, JSNum.num p.2⟩)

/-- The weights of a numeric-weight list. -/
def weightsOf (l : List (String × ℚ)) : List ℚ :=
  l.map (fun p => p.2)

/-! ### Heap-threaded embedding

JavaScript passes the option objects by reference, so "the Sampler never
mutates its input" is a statement about the object heap.  The functions
below re-translate src/main.js against an explicit heap of `Item` objects
addressed by naturals: every property read `item.weight` / `item.name`
becomes a heap read, and each function returns the heap it finished with.
Claim C7 proves the returned heap is the argument heap and that the
heap-threaded run computes the same winner as the pure embedding above. -/

/-- The object heap: an `Item` object at every address. -/
abbrev Heap := ℕ → Item

/-- Heap-threaded `for (const item of items)` loop of src/main.js lines
22-27, over item references. -/
def findCrossH (h : Heap) : List ℕ → JSNum → Option ℕ
  | [], _ => none
  | a :: rest, r =>
    let r2 := JSNum.sub r (h a).weight
    if JSNum.lt r2 (JSNum.num 0) then some a else findCrossH h rest r2

/-- Heap-threaded `weightedRandom` (src/main.js lines 8-31): takes the
heap and the list of item references, returns the winning reference and
the heap after the call. -/
def weightedRandomH (h : Heap) (addrs : List ℕ) (u : ℚ) :
    Option ℕ × Heap :=
  if addrs.length = 0 then (none, h)
  else
    let totalWeight := addrs.foldl (fun sum a => JSNum.add sum (h a).weight) (JSNum.num 0)
    if JSNum.le totalWeight (JSNum.num 0) then
      (addrs[(Int.toNat ⌊u * (addrs.length : ℚ)⌋)]?, h)
    else
      match findCrossH h addrs (JSNum.mul (JSNum.num u) totalWeight) with
      | some a => (some a, h)
      | none => (addrs[(addrs.length - 1)]?, h)

/-- Heap-threaded tally initialization (src/main.js lines 252-254). -/
def initTallyH (h : Heap) (addrs : List ℕ) : List (String × ℕ) :=
  addrs.foldl (fun m a => objSet m (h a).name 0) []

/-- Heap-threaded trial iteration (src/main.js lines 256-261). -/
def simStepH (addrs : List ℕ) (mh : List (String × ℕ) × Heap) (u : ℚ) :
    List (String × ℕ) × Heap :=
  match weightedRandomH mh.2 addrs u with
  | (some a, h1) =>
    (match objGet mh.1 (h1 a).name with
     | some n => objSet mh.1 (h1 a).name (n + 1)
     | none => mh.1, h1)
  | (none, h1) => (mh.1, h1)

/-- Heap-threaded trial-runner core (src/main.js lines 246-261). -/
def runTrialsH (h : Heap) (addrs : List ℕ) (us : List ℚ) :
    Option (List (String × ℕ)) × Heap :=
  if addrs.length < 2 then (none, h)
  else
    let r := us.foldl (simStepH addrs) (initTallyH h addrs, h)
    (some r.1, r.2)

/-! ### Basic lemmas about the embedded code -/

lemma sumW_aux (l : List (String × ℚ)) : ∀ a : ℚ,
    (itemsOf l).foldl (fun sum it => JSNum.add sum it.weight) (JSNum.num a)
      = JSNum.num (a + (weightsOf l).sum) := by
  induction l with
  | nil => intro a; simp [itemsOf, weightsOf]
  | cons p t ih =>
    intro a
    simp only [itemsOf, weightsOf, List.map_cons, List.foldl_cons, List.sum_cons]
    have : JSNum.add (JSNum.num a) (JSNum.num p.2) = JSNum.num (a + p.2) := rfl
    rw [this]
    have ht := ih (a + p.2)
    simp only [itemsOf, weightsOf] at ht
    rw [ht, add_assoc]

/-- The total weight of a numeric-weight list is the exact rational sum. -/
lemma sumW_itemsOf (l : List (String × ℚ)) :
    sumW (itemsOf l) = JSNum.num ((weightsOf l).sum) := by
  simpa using sumW_aux l 0

lemma length_itemsOf (l : List (String × ℚ)) :
    (itemsOf l).length = l.length := by
  simp [itemsOf]

/-- On numeric weights, the subtract-until-negative loop stops exactly at
`crossIdx` (and exhausts precisely when `crossIdx` runs off the list). -/
lemma findCross_itemsOf (l : List (String × ℚ)) : ∀ r : ℚ,
    findCross (itemsOf l) (JSNum.num r)
      = (itemsOf l)[(crossIdx (weightsOf l) r)]? := by
  induction l with
  | nil => intro r; simp [itemsOf, weightsOf, findCross, crossIdx]
  | cons p t ih =>
    intro r
    simp only [itemsOf, weightsOf, List.map_cons, findCross, crossIdx]
    have hsub : JSNum.sub (JSNum.num r) (JSNum.num p.2) = JSNum.num (r - p.2) := rfl
    rw [hsub]
    by_cases hc : r - p.2 < 0
    · simp [JSNum.lt, hc]
    · simp only [JSNum.lt, decide_eq_true_eq, hc, if_false, if_neg, decide_eq_false_iff_not,
        not_false_iff]
      have := ih (r - p.2)
      simp only [itemsOf, weightsOf] at this
      simpa [hc] using this

lemma cumW_zero (ws : List ℚ) : cumW ws 0 = 0 := rfl

lemma cumW_cons_succ (w : ℚ) (ws : List ℚ) (n : ℕ) :
    cumW (w :: ws) (n + 1) = w + cumW ws n := by
  simp [cumW, List.take_succ_cons]

lemma cumW_total (ws : List ℚ) : cumW ws ws.length = ws.sum := by
  simp [cumW]

/-- `crossIdx` stops inside the list, at the smallest index whose prefix
sum exceeds `r` (for a draw `0 ≤ r` below the total). -/
lemma crossIdx_spec (ws : List ℚ) : ∀ r : ℚ, 0 ≤ r → r < ws.sum →
    crossIdx ws r < ws.length
      ∧ r < cumW ws (crossIdx ws r + 1)
      ∧ ∀ j, j < crossIdx ws r → cumW ws (j + 1) ≤ r := by
  induction ws with
  | nil =>
    intro r h0 hlt
    simp only [List.sum_nil] at hlt
    exact absurd hlt (by linarith)
  | cons w ws ih =>
    intro r h0 hlt
    by_cases hc : r - w < 0
    · refine ⟨by simp [crossIdx, hc], ?_, ?_⟩
      · simp only [crossIdx, hc, if_pos, cumW_cons_succ, cumW_zero]
        linarith
      · intro j hj
        simp [crossIdx, hc] at hj
    · push_neg at hc
      have hlt' : r - w < ws.sum := by
        simp only [List.sum_cons] at hlt; linarith
      obtain ⟨h1, h2, h3⟩ := ih (r - w) (by linarith) hlt'
      have hcx : crossIdx (w :: ws) r = crossIdx ws (r - w) + 1 := by
        simp [crossIdx, not_lt.mpr hc]
      refine ⟨?_, ?_, ?_⟩
      · rw [hcx]; simpa using Nat.succ_lt_succ h1
      · rw [hcx, cumW_cons_succ]; linarith
      · intro j hj
        rw [hcx] at hj
        match j with
        | 0 => simpa [cumW_cons_succ, cumW_zero] using hc
        | Nat.succ k =>
          have hk : k < crossIdx ws (r - w) := by omega
          have := h3 k hk
          rw [cumW_cons_succ]
          linarith

/-- Prefix sums of a nonnegative-weight list are monotone. -/
lemma cumW_mono (ws : List ℚ) (hnn : ∀ w ∈ ws, 0 ≤ w) {m n : ℕ}
    (hmn : m ≤ n) : cumW ws m ≤ cumW ws n := by
  have hsplit : cumW ws m + ((ws.take n).drop m).sum = cumW ws n := by
    have h1 : (ws.take n).take m = ws.take m := by
      rw [List.take_take, min_eq_left hmn]
    calc cumW ws m + ((ws.take n).drop m).sum
        = ((ws.take n).take m).sum + ((ws.take n).drop m).sum := by
          rw [h1]; rfl
      _ = ((ws.take n).take m ++ (ws.take n).drop m).sum := by
          rw [List.sum_append]
      _ = cumW ws n := by rw [List.take_append_drop]; rfl
  have hnn' : 0 ≤ ((ws.take n).drop m).sum := by
    refine List.sum_nonneg ?_
    intro x hx
    exact hnn x (List.take_subset n ws (List.drop_subset m (ws.take n) hx))
  linarith

/-- With nonnegative weights, `crossIdx` lands on `i` exactly when the
draw lies in the half-open interval `[cumW i, cumW (i+1))`. -/
lemma crossIdx_eq_iff (ws : List ℚ) (r : ℚ) (i : ℕ)
    (hnn : ∀ w ∈ ws, 0 ≤ w) (h0 : 0 ≤ r) (hr : r < ws.sum)
    (hi : i < ws.length) :
    crossIdx ws r = i ↔ cumW ws i ≤ r ∧ r < cumW ws (i + 1) := by
  obtain ⟨hlen, hhit, hleast⟩ := crossIdx_spec ws r h0 hr
  constructor
  · rintro rfl
    refine ⟨?_, hhit⟩
    rcases Nat.eq_zero_or_pos (crossIdx ws r) with h | h
    · rw [h, cumW_zero]; exact h0
    · obtain ⟨k, hk⟩ := Nat.exists_eq_succ_of_ne_zero (Nat.pos_iff_ne_zero.mp h)
      rw [hk]
      exact hleast k (by omega)
  · rintro ⟨hlo, hhi⟩
    by_contra hne
    rcases Nat.lt_or_ge (crossIdx ws r) i with hlt | hge
    · have h1 : crossIdx ws r + 1 ≤ i := hlt
      have := cumW_mono ws hnn h1
      linarith
    · have h2 : i < crossIdx ws r := by omega
      have := hleast i h2
      linarith

/-- The interval owned by index `i` has length exactly the `i`-th weight. -/
lemma cumW_succ_sub (ws : List ℚ) (i : ℕ) (hi : i < ws.length) :
    cumW ws (i + 1) - cumW ws i = ws.getD i 0 := by
  have h1 : cumW ws (i + 1) = cumW ws i + (ws[i]?).toList.sum := by
    simp [cumW, List.take_succ, List.sum_append]
  rw [List.getElem?_eq_getElem hi] at h1
  simp only [Option.toList_some, List.sum_cons, List.sum_nil, add_zero] at h1
  rw [List.getD_eq_getElem?_getD, List.getElem?_eq_getElem hi]
  simp [h1]

/-- Unfolding `weightedRandom` in the degenerate (uniform) branch. -/
lemma weightedRandom_of_uniform (items : List Item) (u : ℚ)
    (hne : items.length ≠ 0)
    (hle : JSNum.le (sumW items) (JSNum.num 0) = true) :
    weightedRandom items u
      = items[(Int.toNat ⌊u * (items.length : ℚ)⌋)]? := by
  unfold weightedRandom
  simp [hne, hle]

/-- Unfolding `weightedRandom` in the weighted branch. -/
lemma weightedRandom_of_weighted (items : List Item) (u : ℚ)
    (hne : items.length ≠ 0)
    (hle : JSNum.le (sumW items) (JSNum.num 0) = false) :
    weightedRandom items u
      = match findCross items (JSNum.mul (JSNum.num u) (sumW items)) with
        | some it => some it
        | none => items[(items.length - 1)]? := by
  unfold weightedRandom
  simp [hne, hle]

/-! ### Claim C1 -/

/-- Option names used in concrete instances. -/
def nmA : String := "A"

def nmB : String := "B"

def nmC : String := "C"

/-- Counterexample list for C1 as frozen: total weight `2 > 0`, but a
negative weight is present. -/
def cexC1 : List (String × ℚ) := [(nmA, 2), (nmB, -1), (nmC, 1)]

/-- Instance list for the C1 witness. -/
def wlC1 : List (String × ℚ) := [(nmA, 1), (nmB, 3)]

/-- C1 (amended): for numeric weights with total `T > 0` and a draw
`r ∈ [0, T)` (the code draws `u ∈ [0, 1)` and scans with `r = u·T`), the
Sampler returns the item at `crossIdx`, the smallest index whose
cumulative weight prefix-sum exceeds `r`; when moreover every individual
weight is nonnegative, index `i` is hit exactly for `r` in the interval
`[cumW i, cumW (i+1))`, whose length is `weight_i` — so item `i` owns a
set of draws of measure `weight_i` and wins with probability
`weight_i / T`. -/
theorem C1_cumulative_inversion (l : List (String × ℚ)) (r : ℚ)
    (hpos : 0 < (weightsOf l).sum) (h0 : 0 ≤ r)
    (hr : r < (weightsOf l).sum) :
    weightedRandom (itemsOf l) (r / (weightsOf l).sum)
        = (itemsOf l)[(crossIdx (weightsOf l) r)]?
      ∧ (crossIdx (weightsOf l) r < l.length
          ∧ r < cumW (weightsOf l) (crossIdx (weightsOf l) r + 1)
          ∧ ∀ j, j < crossIdx (weightsOf l) r
              → cumW (weightsOf l) (j + 1) ≤ r)
      ∧ ((∀ w ∈ weightsOf l, 0 ≤ w) → ∀ i, i < l.length →
          ((crossIdx (weightsOf l) r = i)
              ↔ (cumW (weightsOf l) i ≤ r
                  ∧ r < cumW (weightsOf l) (i + 1)))
            ∧ cumW (weightsOf l) (i + 1) - cumW (weightsOf l) i
                = (weightsOf l).getD i 0) := by
  have hwslen : (weightsOf l).length = l.length := by simp [weightsOf]
  have hlne : l.length ≠ 0 := by
    intro h
    rw [List.length_eq_zero] at h
    subst h
    simp [weightsOf] at hpos
  have hne : (itemsOf l).length ≠ 0 := by
    rw [length_itemsOf]; exact hlne
  have hT0 : (weightsOf l).sum ≠ 0 := ne_of_gt hpos
  have hle : JSNum.le (sumW (itemsOf l)) (JSNum.num 0) = false := by
    rw [sumW_itemsOf]
    simp only [JSNum.le, decide_eq_false_iff_not, not_le]
    exact hpos
  obtain ⟨hlen, hhit, hleast⟩ := crossIdx_spec (weightsOf l) r h0 hr
  have hlen' : crossIdx (weightsOf l) r < l.length := by
    rw [← hwslen]; exact hlen
  have hlt : crossIdx (weightsOf l) r < (itemsOf l).length := by
    rw [length_itemsOf]; exact hlen'
  refine ⟨?_, ⟨hlen', hhit, hleast⟩, ?_⟩
  · rw [weightedRandom_of_weighted _ _ hne hle]
    have hmul : JSNum.mul (JSNum.num (r / (weightsOf l).sum)) (sumW (itemsOf l))
        = JSNum.num r := by
      rw [sumW_itemsOf]
      show JSNum.num (r / (weightsOf l).sum * (weightsOf l).sum) = JSNum.num r
      rw [div_mul_cancel₀ r hT0]
    rw [hmul, findCross_itemsOf, List.getElem?_eq_getElem hlt]
  · intro hnn i hi
    refine ⟨crossIdx_eq_iff (weightsOf l) r i hnn h0 hr (by rw [hwslen]; exact hi), ?_⟩
    exact cumW_succ_sub (weightsOf l) i (by rw [hwslen]; exact hi)

/-- C1 as frozen is false on the code: the list `[(A,2), (B,-1), (C,1)]`
has positive (non-NaN) total weight `2`, and the claim then asserts item
`C` (weight `1`) wins a set of draws of measure `1` (probability `1/2`);
but for every draw the Sampler returns item `A`, so `C` is returned for
the empty set of draws. -/
theorem C1_counterexample :
    sumW (itemsOf cexC1) = JSNum.num 2
      ∧ ((nmC, (1 : ℚ)) ∈ cexC1)
      ∧ (∀ u : ℚ, 0 ≤ u → u < 1 →
          weightedRandom (itemsOf cexC1) u = some ⟨nmA, JSNum.num 2⟩)
      ∧ Item.mk nmA (JSNum.num 2) ≠ Item.mk nmC (JSNum.num 1) := by
  have hsum : sumW (itemsOf cexC1) = JSNum.num 2 := by
    rw [sumW_itemsOf]
    norm_num [weightsOf, cexC1]
  refine ⟨hsum, by norm_num [cexC1], ?_, by simp [nmA, nmC]⟩
  intro u h0 h1
  have hne : (itemsOf cexC1).length ≠ 0 := by simp [itemsOf, cexC1]
  have hle : JSNum.le (sumW (itemsOf cexC1)) (JSNum.num 0) = false := by
    rw [hsum]
    simp only [JSNum.le, decide_eq_false_iff_not, not_le]
    norm_num
  rw [weightedRandom_of_weighted _ _ hne hle]
  rw [hsum]
  have hmul : JSNum.mul (JSNum.num u) (JSNum.num 2) = JSNum.num (u * 2) := rfl
  rw [hmul]
  have hfc : findCross (itemsOf cexC1) (JSNum.num (u * 2))
      = some ⟨nmA, JSNum.num 2⟩ := by
    simp only [cexC1, itemsOf, List.map_cons, List.map_nil, findCross]
    have hsub : JSNum.sub (JSNum.num (u * 2)) (JSNum.num 2)
        = JSNum.num (u * 2 - 2) := rfl
    rw [hsub]
    have hlt : JSNum.lt (JSNum.num (u * 2 - 2)) (JSNum.num 0) = true := by
      simp only [JSNum.lt, decide_eq_true_eq]
      linarith
    simp [hlt]
  rw [hfc]

/-- C1's theorem applied at the concrete list `[(A,1), (B,3)]` and the
draw `r = 2`. -/
theorem C1_witness :
    weightedRandom (itemsOf wlC1) (2 / (weightsOf wlC1).sum)
      = (itemsOf wlC1)[(crossIdx (weightsOf wlC1) 2)]? :=
  (C1_cumulative_inversion wlC1 2 (by norm_num [weightsOf, wlC1])
    (by norm_num) (by norm_num [weightsOf, wlC1])).1

/-! ### Claims C2, C3, C4 -/

/-- Whatever the loop returns is one of the scanned items. -/
lemma findCross_mem : ∀ (items : List Item) (r : JSNum) (it : Item),
    findCross items r = some it → it ∈ items := by
  intro items
  induction items with
  | nil => intro r it h; simp [findCross] at h
  | cons a rest ih =>
    intro r it h
    simp only [findCross] at h
    split at h
    · exact (Option.some.injEq _ _ ▸ h) ▸ List.mem_cons_self a rest
    · exact List.mem_cons_of_mem a (ih _ it h)

/-- On a non-empty list and a valid draw, the Sampler returns a member of
the list. -/
lemma weightedRandom_mem (items : List Item) (u : ℚ) (hne : items ≠ [])
    (h0 : 0 ≤ u) (h1 : u < 1) :
    ∃ it, it ∈ items ∧ weightedRandom items u = some it := by
  have hlen : items.length ≠ 0 := by simpa [List.length_eq_zero] using hne
  have hlpos : 0 < items.length := Nat.pos_of_ne_zero hlen
  by_cases hle : JSNum.le (sumW items) (JSNum.num 0) = true
  · rw [weightedRandom_of_uniform items u hlen hle]
    have hfl : ⌊u * (items.length : ℚ)⌋ < (items.length : ℤ) := by
      rw [Int.floor_lt]
      push_cast
      calc u * (items.length : ℚ) < 1 * (items.length : ℚ) := by
            apply mul_lt_mul_of_pos_right h1
            exact_mod_cast hlpos
        _ = (items.length : ℚ) := one_mul _
    have hfl0 : 0 ≤ ⌊u * (items.length : ℚ)⌋ :=
      Int.floor_nonneg.mpr (mul_nonneg h0 (by positivity))
    have hklt : Int.toNat ⌊u * (items.length : ℚ)⌋ < items.length := by omega
    exact ⟨items[Int.toNat ⌊u * (items.length : ℚ)⌋],
      List.getElem_mem hklt, List.getElem?_eq_getElem hklt⟩
  · have hle' : JSNum.le (sumW items) (JSNum.num 0) = false :=
      eq_false_of_ne_true hle
    rw [weightedRandom_of_weighted items u hlen hle']
    rcases hfc : findCross items (JSNum.mul (JSNum.num u) (sumW items))
      with _ | it
    · have hl1 : items.length - 1 < items.length := by omega
      exact ⟨items[items.length - 1], List.getElem_mem hl1, by
        simp [List.getElem?_eq_getElem hl1]⟩
    · exact ⟨it, findCross_mem items _ it hfc, by simp⟩

/-- Concrete non-empty list for witnesses. -/
def wItemsAB : List Item := [⟨nmA, JSNum.num 1⟩, ⟨nmB, JSNum.num 3⟩]

/-- C2: on a non-empty list and any draw `u ∈ [0,1)` the Sampler returns
one of the supplied items (never `none`); and whenever the weighted loop
exhausts with no negative crossing, the returned item is the last item of
the sequence. -/
theorem C2_coverage_and_fallback (items : List Item) (u : ℚ)
    (hne : items ≠ []) (h0 : 0 ≤ u) (h1 : u < 1) :
    (∃ it, it ∈ items ∧ weightedRandom items u = some it)
      ∧ (JSNum.le (sumW items) (JSNum.num 0) = false →
          findCross items (JSNum.mul (JSNum.num u) (sumW items)) = none →
          weightedRandom items u = items.getLast?) := by
  refine ⟨weightedRandom_mem items u hne h0 h1, ?_⟩
  intro hle hfc
  have hlen : items.length ≠ 0 := by simpa [List.length_eq_zero] using hne
  rw [weightedRandom_of_weighted items u hlen hle, hfc,
    List.getLast?_eq_getElem?]

/-- C2's theorem applied to the list `[{A,1},{B,3}]` and the draw `0`. -/
theorem C2_witness :
    ∃ it, it ∈ wItemsAB ∧ weightedRandom wItemsAB 0 = some it :=
  (C2_coverage_and_fallback wItemsAB 0 (by simp [wItemsAB]) (by norm_num)
    (by norm_num)).1

/-- C3: when the code's `totalWeight <= 0` test succeeds, the Sampler
returns the item at index `⌊u · N⌋`, and index `i` is selected exactly
for `u` in `[i/N, (i+1)/N)`, an interval of length `1/N` — uniform
selection ignoring the individual weights. -/
theorem C3_uniform_degenerate (items : List Item) (u : ℚ)
    (hne : items ≠ [])
    (hle : JSNum.le (sumW items) (JSNum.num 0) = true)
    (h0 : 0 ≤ u) (h1 : u < 1) :
    weightedRandom items u
        = items[(Int.toNat ⌊u * (items.length : ℚ)⌋)]?
      ∧ ∀ i, i < items.length →
          ((Int.toNat ⌊u * (items.length : ℚ)⌋ = i)
              ↔ ((i : ℚ) / (items.length : ℚ) ≤ u
                  ∧ u < ((i : ℚ) + 1) / (items.length : ℚ)))
            ∧ ((i : ℚ) + 1) / (items.length : ℚ)
                - (i : ℚ) / (items.length : ℚ) = 1 / (items.length : ℚ) := by
  have hlen : items.length ≠ 0 := by simpa [List.length_eq_zero] using hne
  have hNpos : (0 : ℚ) < (items.length : ℚ) := by
    exact_mod_cast Nat.pos_of_ne_zero hlen
  have hfl0 : 0 ≤ ⌊u * (items.length : ℚ)⌋ :=
    Int.floor_nonneg.mpr (mul_nonneg h0 (le_of_lt hNpos))
  refine ⟨weightedRandom_of_uniform items u hlen hle, ?_⟩
  intro i hi
  refine ⟨⟨?_, ?_⟩, ?_⟩
  · intro hEq
    have hflEq : ⌊u * (items.length : ℚ)⌋ = (i : ℤ) := by omega
    rw [Int.floor_eq_iff] at hflEq
    obtain ⟨hlo, hhi⟩ := hflEq
    constructor
    · rw [div_le_iff₀ hNpos]
      exact_mod_cast hlo
    · rw [lt_div_iff₀ hNpos]
      push_cast at hhi ⊢
      linarith
  · rintro ⟨hlo, hhi⟩
    rw [div_le_iff₀ hNpos] at hlo
    rw [lt_div_iff₀ hNpos] at hhi
    have hflEq : ⌊u * (items.length : ℚ)⌋ = (i : ℤ) := by
      rw [Int.floor_eq_iff]
      push_cast
      constructor
      · exact hlo
      · linarith
    omega
  · rw [div_sub_div_same]
    norm_num

/-- Concrete all-zero list for the C3 witness. -/
def wlZero : List (String × ℚ) := [(nmA, 0), (nmB, 0)]

/-- C3's theorem applied to `[{A,0},{B,0}]` and the draw `1/2`. -/
theorem C3_witness :
    weightedRandom (itemsOf wlZero) (1 / 2)
      = (itemsOf wlZero)[(Int.toNat ⌊(1 / 2 : ℚ) * (((itemsOf wlZero).length : ℕ) : ℚ)⌋)]? :=
  (C3_uniform_degenerate (itemsOf wlZero) (1 / 2) (by simp [itemsOf, wlZero])
    (by
      rw [sumW_itemsOf]
      simp only [JSNum.le, decide_eq_true_eq]
      norm_num [weightsOf, wlZero])
    (by norm_num) (by norm_num)).1

/-- C4: the Sampler returns Nothing exactly when its input is absent or
the empty list, for every valid draw; as a total Lean function the
embedding returns a value on every input (it cannot throw). -/
theorem C4_none_iff_empty (o : Option (List Item)) (u : ℚ)
    (h0 : 0 ≤ u) (h1 : u < 1) :
    weightedRandomJS o u = none ↔ o = none ∨ o = some [] := by
  cases o with
  | none => simp [weightedRandomJS]
  | some items =>
    simp only [weightedRandomJS, Option.some.injEq, false_or,
      reduceCtorEq]
    constructor
    · intro hnone
      by_contra hne
      obtain ⟨it, _, hit⟩ := weightedRandom_mem items u hne h0 h1
      rw [hnone] at hit
      exact Option.noConfusion hit
    · rintro rfl
      simp [weightedRandom]

/-- C4's theorem applied to the empty list and the draw `0`. -/
theorem C4_witness :
    weightedRandomJS (some ([] : List Item)) 0 = none
      ↔ (some ([] : List Item) = none ∨ some ([] : List Item) = some []) :=
  C4_none_iff_empty (some []) 0 (by norm_num) (by norm_num)

/-! ### Claim C8 -/

lemma JSNum.add_nan (w : JSNum) : JSNum.add JSNum.nan w = JSNum.nan := by
  cases w <;> rfl

lemma JSNum.sub_nan (w : JSNum) : JSNum.sub JSNum.nan w = JSNum.nan := by
  cases w <;> rfl

/-- Once the accumulator is `NaN`, the weight sum stays `NaN`. -/
lemma foldl_add_from_nan (items : List Item) :
    items.foldl (fun sum it => JSNum.add sum it.weight) JSNum.nan
      = JSNum.nan := by
  induction items with
  | nil => rfl
  | cons a rest ih =>
    rw [List.foldl_cons, JSNum.add_nan]
    exact ih

/-- A single `NaN` weight degrades the whole sum to `NaN`. -/
lemma sumW_nan_of_mem (items : List Item)
    (hnan : JSNum.nan ∈ items.map Item.weight) :
    sumW items = JSNum.nan := by
  rw [sumW]
  generalize (JSNum.num 0 : JSNum) = acc
  induction items generalizing acc with
  | nil => simp at hnan
  | cons a rest ih =>
    rw [List.map_cons, List.mem_cons] at hnan
    rcases hnan with h | h
    · rw [List.foldl_cons]
      have hw : JSNum.add acc a.weight = JSNum.nan := by
        rw [← h]
        cases acc <;> rfl
      rw [hw]
      exact foldl_add_from_nan rest
    · rw [List.foldl_cons]
      exact ih h _

/-- With a `NaN` running value the loop never sees a negative crossing. -/
lemma findCross_nan (items : List Item) :
    findCross items JSNum.nan = none := by
  induction items with
  | nil => rfl
  | cons a rest ih =>
    simp only [findCross, JSNum.sub_nan]
    exact ih

/-- C8: a `NaN` weight makes `totalWeight` `NaN`, the `<= 0` comparison
is then `false`, the weighted loop runs with a `NaN` running value that
never goes negative, and the Sampler deterministically returns the last
item — for every randomness draw. -/
theorem C8_nan_last_fallback (items : List Item) (u : ℚ)
    (hne : items ≠ []) (hnan : JSNum.nan ∈ items.map Item.weight) :
    sumW items = JSNum.nan
      ∧ JSNum.le (sumW items) (JSNum.num 0) = false
      ∧ weightedRandom items u = items.getLast? := by
  have hsum : sumW items = JSNum.nan := sumW_nan_of_mem items hnan
  have hle : JSNum.le (sumW items) (JSNum.num 0) = false := by
    rw [hsum]; rfl
  have hlen : items.length ≠ 0 := by simpa [List.length_eq_zero] using hne
  refine ⟨hsum, hle, ?_⟩
  rw [weightedRandom_of_weighted items u hlen hle, hsum]
  rw [show JSNum.mul (JSNum.num u) JSNum.nan = JSNum.nan from rfl]
  rw [findCross_nan, List.getLast?_eq_getElem?]

/-- Concrete list with a `NaN` weight for the C8 witness. -/
def wItemsNan : List Item := [⟨nmA, JSNum.nan⟩, ⟨nmB, JSNum.num 1⟩]

/-- C8's theorem applied to `[{A,NaN},{B,1}]` and the draw `1/3`. -/
theorem C8_witness :
    sumW wItemsNan = JSNum.nan
      ∧ JSNum.le (sumW wItemsNan) (JSNum.num 0) = false
      ∧ weightedRandom wItemsNan (1 / 3) = wItemsNan.getLast? :=
  C8_nan_last_fallback wItemsNan (1 / 3) (by simp [wItemsNan])
    (by simp [wItemsNan])

/-! ### Claim C9 -/

/-- Raw option rows refuting C9 as frozen: a weight that parses to `0`
and a weight that parses to `-3`. -/
def cexOptsC9 : List RawOption := [⟨nmA, JSNum.num 0⟩, ⟨nmB, JSNum.num (-3)⟩]

/-- C9 as frozen is false on the code: the weight `0` parses as the
integer `0`, yet the core receives `1` (so the default is substituted
even though parsing succeeded), and the weight `-3` parses and is passed
through as `-3`, which is not a positive integer. -/
theorem C9_counterexample :
    normalizeItems cexOptsC9
        = [⟨nmA, JSNum.num 1⟩, ⟨nmB, JSNum.num (-3)⟩]
      ∧ jsTrunc 0 = 0
      ∧ jsTrunc (-3) = -3
      ∧ (0 : ℚ) ≠ 1
      ∧ ¬ (0 : ℤ) < -3 := by
  refine ⟨?_, by norm_num [jsTrunc], by norm_num [jsTrunc], by norm_num,
    by norm_num⟩
  have h0 : jsTrunc 0 = 0 := by norm_num [jsTrunc]
  have h3 : jsTrunc (-3) = -3 := by norm_num [jsTrunc]
  simp [normalizeItems, cexOptsC9, jsParseInt, jsOr1, h0, h3]

/-- C9 (amended): before each spin and simulation every option weight is
parsed with `parseInt`; the default `1` is substituted exactly when
parsing fails (`NaN`, covering absent/non-numeric input) or when the
parsed integer is `0` (a falsy value under `|| 1`); every other parsed
integer — positive or negative — is passed to the core unchanged. -/
theorem C9_normalization (opts : List RawOption) (i : ℕ) (o : RawOption)
    (hio : opts[i]? = some o) :
    (normalizeItems opts).length = opts.length
      ∧ (o.weight = JSNum.nan →
          (normalizeItems opts)[i]? = some ⟨o.name, JSNum.num 1⟩)
      ∧ (∀ q : ℚ, o.weight = JSNum.num q → jsTrunc q = 0 →
          (normalizeItems opts)[i]? = some ⟨o.name, JSNum.num 1⟩)
      ∧ (∀ q : ℚ, o.weight = JSNum.num q → jsTrunc q ≠ 0 →
          (normalizeItems opts)[i]?
            = some ⟨o.name, JSNum.num ((jsTrunc q : ℤ) : ℚ)⟩) := by
  have hmap : (normalizeItems opts)[i]?
      = some ⟨o.name, jsOr1 (jsParseInt o.weight)⟩ := by
    rw [normalizeItems, List.getElem?_map, hio]
    rfl
  refine ⟨by simp [normalizeItems], ?_, ?_, ?_⟩
  · intro hw
    rw [hmap, hw]
    rfl
  · intro q hw hq
    rw [hmap, hw]
    simp [jsParseInt, jsOr1, hq]
  · intro q hw hq
    rw [hmap, hw]
    simp [jsParseInt, jsOr1, Int.cast_eq_zero, hq]

/-- C9's theorem applied to a single option of weight `5/2`, whose
`parseInt` truncation is the nonzero integer `2`. -/
theorem C9_witness :
    (normalizeItems [⟨nmA, JSNum.num (5 / 2)⟩])[0]?
      = some ⟨nmA, JSNum.num ((jsTrunc (5 / 2) : ℤ) : ℚ)⟩ :=
  ((C9_normalization [⟨nmA, JSNum.num (5 / 2)⟩] 0 ⟨nmA, JSNum.num (5 / 2)⟩
      rfl).2.2.2) (5 / 2) rfl (by norm_num [jsTrunc])

/-! ### Claim C10 -/

/-- `find?` returns the element at the first index satisfying the
predicate. -/
lemma find?_eq_of_first {α : Type} (p : α → Bool) :
    ∀ (l : List α) (i : ℕ) (hi : i < l.length),
      p (l.get ⟨i, hi⟩) = true →
      (∀ j (hj : j < i), p (l.get ⟨j, lt_trans hj hi⟩) = false) →
      l.find? p = some (l.get ⟨i, hi⟩) := by
  intro l
  induction l with
  | nil => intro i hi; simp at hi
  | cons a t ih =>
    intro i hi hp hfirst
    match i with
    | 0 =>
      have hp' : p a = true := hp
      rw [List.find?_cons_of_pos _ hp']
      rfl
    | Nat.succ k =>
      have ha : p a = false := hfirst 0 (Nat.succ_pos k)
      rw [List.find?_cons_of_neg _ (by simp [ha])]
      exact ih k (Nat.lt_of_succ_lt_succ hi) hp
        (fun j hj => hfirst (j + 1) (Nat.succ_lt_succ hj))

/-- The duplicate-name list for C10: names `A`, `B`, `A` with weights
`1`, `1`, `3`, total weight `5`. -/
def dupItems : List Item :=
  [⟨nmA, JSNum.num 1⟩, ⟨nmB, JSNum.num 1⟩, ⟨nmA, JSNum.num 3⟩]

/-- C10: the displayed theoretical percentage for a name is computed from
the weight of the first item in list order bearing that name (a `find`
by name), ignoring later same-named items; on `[{A,1},{B,1},{A,3}]`
(total 5) both displayed percentages are `20%`, so the percentages over
the distinct names sum to `40`, not `100`. -/
theorem C10_first_occurrence (items : List Item) (nm : String) (i : ℕ)
    (hi : i < items.length)
    (hname : (items.get ⟨i, hi⟩).name = nm)
    (hfirst : ∀ j (hj : j < i), (items.get ⟨j, lt_trans hj hi⟩).name ≠ nm) :
    theoreticalPct items nm
        = some (if JSNum.lt (JSNum.num 0) (sumW items) then
            JSNum.mul
              (JSNum.div (items.get ⟨i, hi⟩).weight (sumW items))
              (JSNum.num 100)
          else JSNum.num (100 / (items.length : ℚ)))
      ∧ theoreticalPct dupItems nmA = some (JSNum.num 20)
      ∧ theoreticalPct dupItems nmB = some (JSNum.num 20)
      ∧ (20 : ℚ) + 20 ≠ 100 := by
  have hsum : sumW dupItems = JSNum.num 5 := by
    norm_num [sumW, dupItems, JSNum.add]
  have hfind : items.find? (fun it => it.name == nm)
      = some (items.get ⟨i, hi⟩) := by
    refine find?_eq_of_first _ items i hi ?_ ?_
    · have h' := hname
      simp only [List.get_eq_getElem] at h' ⊢
      simp [h']
    · intro j hj
      simpa using hfirst j hj
  refine ⟨?_, ?_, ?_, by norm_num⟩
  · simp only [theoreticalPct, hfind, Option.map_some']
  · have hfA : dupItems.find? (fun it => it.name == nmA)
        = some ⟨nmA, JSNum.num 1⟩ := rfl
    simp only [theoreticalPct, hfA, hsum, Option.map_some']
    norm_num [JSNum.lt, JSNum.div, JSNum.mul]
  · have hfB : dupItems.find? (fun it => it.name == nmB)
        = some ⟨nmB, JSNum.num 1⟩ := rfl
    simp only [theoreticalPct, hfB, hsum, Option.map_some']
    norm_num [JSNum.lt, JSNum.div, JSNum.mul]

/-- C10's theorem applied to the duplicate-name list at its first
`A`-named index. -/
theorem C10_witness :
    theoreticalPct dupItems nmA = some (JSNum.num 20) :=
  (C10_first_occurrence dupItems nmA 0 (by simp [dupItems]) rfl
    (fun j hj => absurd hj (Nat.not_lt_zero j))).2.1

/-! ### Claims C5 and C6

The tally is a JS object; its keys (in insertion order) are `map Prod.fst`
of the association list, its values `map Prod.snd`. -/

lemma map_fst_update (m : List (String × ℕ)) (k : String) (v : ℕ) :
    (m.map (fun p => if p.1 == k then (k, v) else p)).map Prod.fst
      = m.map Prod.fst := by
  induction m with
  | nil => rfl
  | cons p t ih =>
    simp only [List.map_cons, ih]
    by_cases h : (p.1 == k) = true
    · have hpk : p.1 = k := by simpa using h
      simp [h, hpk]
    · simp [h]

lemma any_key_of_mem {m : List (String × ℕ)} {k : String}
    (hk : k ∈ m.map Prod.fst) : m.any (fun p => p.1 == k) = true := by
  rw [List.any_eq_true]
  obtain ⟨p, hp, hpk⟩ := List.mem_map.mp hk
  exact ⟨p, hp, by simp [hpk]⟩

lemma any_key_of_not_mem {m : List (String × ℕ)} {k : String}
    (hk : k ∉ m.map Prod.fst) : m.any (fun p => p.1 == k) = false := by
  rw [List.any_eq_false]
  intro p hp
  simp only [beq_iff_eq]
  intro he
  exact hk (List.mem_map.mpr ⟨p, hp, he⟩)

/-- Overwriting an existing key leaves the key sequence unchanged. -/
lemma objSet_keys_of_mem (m : List (String × ℕ)) (k : String) (v : ℕ)
    (hk : k ∈ m.map Prod.fst) :
    (objSet m k v).map Prod.fst = m.map Prod.fst := by
  rw [objSet, if_pos (any_key_of_mem hk), map_fst_update]

/-- Writing a fresh key appends it to the key sequence. -/
lemma objSet_keys_of_not_mem (m : List (String × ℕ)) (k : String) (v : ℕ)
    (hk : k ∉ m.map Prod.fst) :
    (objSet m k v).map Prod.fst = m.map Prod.fst ++ [k] := by
  rw [objSet]
  simp [any_key_of_not_mem hk]

lemma mem_keys_objSet (m : List (String × ℕ)) (k k' : String) (v : ℕ) :
    k' ∈ (objSet m k v).map Prod.fst
      ↔ k' ∈ m.map Prod.fst ∨ k' = k := by
  by_cases hk : k ∈ m.map Prod.fst
  · rw [objSet_keys_of_mem m k v hk]
    constructor
    · exact Or.inl
    · rintro (h | rfl)
      · exact h
      · exact hk
  · rw [objSet_keys_of_not_mem m k v hk]
    simp [List.mem_append]

lemma keys_nodup_objSet (m : List (String × ℕ)) (k : String) (v : ℕ)
    (h : (m.map Prod.fst).Nodup) :
    ((objSet m k v).map Prod.fst).Nodup := by
  by_cases hk : k ∈ m.map Prod.fst
  · rw [objSet_keys_of_mem m k v hk]; exact h
  · rw [objSet_keys_of_not_mem m k v hk]
    rw [List.nodup_append]
    refine ⟨h, List.nodup_singleton k, ?_⟩
    intro a ha hak
    rw [List.mem_singleton] at hak
    exact hk (hak ▸ ha)

/-- Every entry of `objSet m k v` is an old entry or the written pair. -/
lemma mem_objSet (m : List (String × ℕ)) (k : String) (v : ℕ)
    (p : String × ℕ) (hp : p ∈ objSet m k v) : p ∈ m ∨ p = (k, v) := by
  rw [objSet] at hp
  split at hp
  · obtain ⟨q, hq, hqe⟩ := List.mem_map.mp hp
    by_cases h : (q.1 == k) = true
    · right; rw [← hqe]; simp [h]
    · left
      rw [← hqe]
      simp only [h, if_neg, Bool.not_eq_true]
      simpa [h] using hq
  · rcases List.mem_append.mp hp with h | h
    · left; exact h
    · right; simpa using h

/-- All tally values are zero after initialization. -/
lemma initTally_values (items : List Item) :
    ∀ p ∈ initTally items, p.2 = 0 := by
  rw [initTally]
  have : ∀ (acc : List (String × ℕ)), (∀ p ∈ acc, p.2 = 0) →
      ∀ p ∈ items.foldl (fun m it => objSet m it.name 0) acc, p.2 = 0 := by
    induction items with
    | nil => intro acc hacc p hp; exact hacc p hp
    | cons a t ih =>
      intro acc hacc p hp
      rw [List.foldl_cons] at hp
      refine ih _ ?_ p hp
      intro q hq
      rcases mem_objSet acc a.name 0 q hq with h | h
      · exact hacc q h
      · rw [h]
  exact this [] (by simp)

/-- A name is a tally key exactly when it is an item name. -/
lemma initTally_keys_mem (items : List Item) (nm : String) :
    nm ∈ (initTally items).map Prod.fst ↔ nm ∈ items.map Item.name := by
  rw [initTally]
  have : ∀ (acc : List (String × ℕ)),
      nm ∈ (items.foldl (fun m it => objSet m it.name 0) acc).map Prod.fst
        ↔ nm ∈ acc.map Prod.fst ∨ nm ∈ items.map Item.name := by
    induction items with
    | nil => intro acc; simp
    | cons a t ih =>
      intro acc
      rw [List.foldl_cons, ih, mem_keys_objSet]
      simp only [List.map_cons, List.mem_cons]
      tauto
  simpa using this []

/-- The tally keys are distinct after initialization. -/
lemma initTally_keys_nodup (items : List Item) :
    ((initTally items).map Prod.fst).Nodup := by
  rw [initTally]
  have : ∀ (acc : List (String × ℕ)), (acc.map Prod.fst).Nodup →
      ((items.foldl (fun m it => objSet m it.name 0) acc).map Prod.fst).Nodup := by
    induction items with
    | nil => intro acc hacc; exact hacc
    | cons a t ih =>
      intro acc hacc
      rw [List.foldl_cons]
      exact ih _ (keys_nodup_objSet acc a.name 0 hacc)
  exact this [] (by simp)

lemma objGet_isSome_of_mem (m : List (String × ℕ)) (k : String)
    (hk : k ∈ m.map Prod.fst) : ∃ n, objGet m k = some n := by
  have hs : (m.find? (fun p => p.1 == k)).isSome = true := by
    rw [List.find?_isSome]
    obtain ⟨p, hp, hpk⟩ := List.mem_map.mp hk
    exact ⟨p, hp, by simp [hpk]⟩
  obtain ⟨q, hq⟩ := Option.isSome_iff_exists.mp hs
  exact ⟨q.2, by rw [objGet, hq]; rfl⟩

lemma mem_keys_of_objGet_some (m : List (String × ℕ)) (k : String) (n : ℕ)
    (h : objGet m k = some n) : k ∈ m.map Prod.fst := by
  rw [objGet] at h
  rcases hf : m.find? (fun p => p.1 == k) with _ | p
  · rw [hf] at h
    exact Option.noConfusion h
  · have hp := List.find?_some hf
    have hmem := List.mem_of_find?_eq_some hf
    exact List.mem_map.mpr ⟨p, hmem, by simpa using hp⟩

/-- Updating a key that is absent from the list changes nothing. -/
lemma map_update_of_not_mem (m : List (String × ℕ)) (k : String) (v : ℕ)
    (hk : k ∉ m.map Prod.fst) :
    m.map (fun p => if p.1 == k then (k, v) else p) = m := by
  induction m with
  | nil => rfl
  | cons p t ih =>
    simp only [List.map_cons, List.mem_cons] at hk ⊢
    push_neg at hk
    have hp : (p.1 == k) = false := by
      simp only [beq_eq_false_iff_ne]
      exact fun he => hk.1 he.symm
    rw [if_neg (by simp [hp])]
    rw [ih (by simpa using hk.2)]

/-- Incrementing an existing key (with distinct keys) raises the value
sum by exactly one. -/
lemma objSet_incr_sum (m : List (String × ℕ)) (k : String) (n : ℕ)
    (hnd : (m.map Prod.fst).Nodup) (hget : objGet m k = some n) :
    ((objSet m k (n + 1)).map Prod.snd).sum
      = ((m.map Prod.snd)).sum + 1 := by
  induction m with
  | nil => simp [objGet] at hget
  | cons p t ih =>
    have hndt : (t.map Prod.fst).Nodup := by
      simp only [List.map_cons, List.nodup_cons] at hnd
      exact hnd.2
    by_cases hpk : (p.1 == k) = true
    · have hkey : p.1 = k := by simpa using hpk
      have hn : p.2 = n := by
        have hfc : List.find? (fun q => q.1 == k) (p :: t) = some p :=
          List.find?_cons_of_pos t hpk
        rw [objGet, hfc] at hget
        simpa using hget
      have hknott : k ∉ t.map Prod.fst := by
        simp only [List.map_cons, List.nodup_cons] at hnd
        exact hkey ▸ hnd.1
      have hany : (p :: t).any (fun q => q.1 == k) = true := by
        simp [List.any_cons, hpk]
      rw [objSet, if_pos hany]
      simp only [List.map_cons, hpk, if_pos]
      rw [map_update_of_not_mem t k _ hknott]
      simp only [List.map_cons, List.sum_cons]
      omega
    · have hget' : objGet t k = some n := by
        have hfc : List.find? (fun q => q.1 == k) (p :: t)
            = List.find? (fun q => q.1 == k) t :=
          List.find?_cons_of_neg t (by simp [hpk])
        rw [objGet, hfc] at hget
        exact hget
      have hmemt : k ∈ t.map Prod.fst := mem_keys_of_objGet_some t k n hget'
      have hanyt : t.any (fun q => q.1 == k) = true := any_key_of_mem hmemt
      have hany : (p :: t).any (fun q => q.1 == k) = true := by
        simp [List.any_cons, hanyt]
      have iht := ih hndt hget'
      rw [objSet, if_pos hanyt] at iht
      rw [objSet, if_pos hany]
      simp only [List.map_cons, hpk, if_neg, Bool.false_eq_true,
        not_false_iff, List.sum_cons]
      omega

/-- One trial with a valid draw keeps the tally keys and raises the value
sum by one. -/
lemma simStep_props (items : List Item) (m : List (String × ℕ)) (u : ℚ)
    (hne : items ≠ []) (hu0 : 0 ≤ u) (hu1 : u < 1)
    (hnd : (m.map Prod.fst).Nodup)
    (hcov : ∀ nm, nm ∈ items.map Item.name → nm ∈ m.map Prod.fst) :
    (simStep items m u).map Prod.fst = m.map Prod.fst
      ∧ ((simStep items m u).map Prod.snd).sum
          = (m.map Prod.snd).sum + 1 := by
  obtain ⟨it, hmem, hres⟩ := weightedRandom_mem items u hne hu0 hu1
  have hnm : it.name ∈ m.map Prod.fst :=
    hcov _ (List.mem_map.mpr ⟨it, hmem, rfl⟩)
  obtain ⟨n, hget⟩ := objGet_isSome_of_mem m it.name hnm
  have hstep : simStep items m u = objSet m it.name (n + 1) := by
    rw [simStep, hres]
    show (match objGet m it.name with
      | some n => objSet m it.name (n + 1)
      | none => m) = objSet m it.name (n + 1)
    rw [hget]
  rw [hstep]
  exact ⟨objSet_keys_of_mem _ _ _ hnm, objSet_incr_sum m it.name n hnd hget⟩

/-- Over a whole trial sequence of valid draws, the keys are unchanged
and the value sum grows by the number of trials. -/
lemma foldl_simStep_props (items : List Item) (hne : items ≠ []) :
    ∀ (us : List ℚ) (m : List (String × ℕ)),
      (∀ u ∈ us, 0 ≤ u ∧ u < 1) →
      (m.map Prod.fst).Nodup →
      (∀ nm, nm ∈ items.map Item.name → nm ∈ m.map Prod.fst) →
      ((us.foldl (simStep items) m).map Prod.fst = m.map Prod.fst
        ∧ ((us.foldl (simStep items) m).map Prod.snd).sum
            = (m.map Prod.snd).sum + us.length) := by
  intro us
  induction us with
  | nil => intro m _ _ _; simp
  | cons u ut ih =>
    intro m hus hnd hcov
    obtain ⟨hu0, hu1⟩ := hus u (List.mem_cons_self u ut)
    obtain ⟨hkeys, hsum⟩ := simStep_props items m u hne hu0 hu1 hnd hcov
    obtain ⟨ihk, ihs⟩ := ih (simStep items m u)
      (fun v hv => hus v (List.mem_cons_of_mem u hv))
      (by rw [hkeys]; exact hnd)
      (fun nm h => by rw [hkeys]; exact hcov nm h)
    rw [List.foldl_cons]
    constructor
    · rw [ihk, hkeys]
    · rw [ihs, hsum, List.length_cons]
      omega

/-- C5: with at least two options and valid draws, the Trial Runner's
tally has exactly one entry per distinct item name (and no others), every
entry starts at `0` and stays nonnegative, and after the trials the
counts sum to exactly the number of trials. -/
theorem C5_tally_invariants (opts : List RawOption) (us : List ℚ)
    (tally : List (String × ℕ))
    (hlen : 2 ≤ opts.length)
    (hus : ∀ u ∈ us, 0 ≤ u ∧ u < 1)
    (heq : runSimulation opts us = some tally) :
    (∀ nm : String, List.count nm (tally.map Prod.fst)
        = if nm ∈ (normalizeItems opts).map Item.name then 1 else 0)
      ∧ (∀ p ∈ initTally (normalizeItems opts), p.2 = 0)
      ∧ (∀ p ∈ tally, 0 ≤ p.2)
      ∧ (tally.map Prod.snd).sum = us.length := by
  have hlenI : (normalizeItems opts).length = opts.length := by
    simp [normalizeItems]
  have hnotlt : ¬ (normalizeItems opts).length < 2 := by omega
  have htal : tally
      = us.foldl (simStep (normalizeItems opts))
          (initTally (normalizeItems opts)) := by
    rw [runSimulation, runTrials, if_neg hnotlt] at heq
    exact (Option.some.injEq _ _ ▸ heq).symm
  have hne : normalizeItems opts ≠ [] := by
    intro h
    rw [h] at hlenI
    simp at hlenI
    omega
  have hndinit : ((initTally (normalizeItems opts)).map Prod.fst).Nodup :=
    initTally_keys_nodup (normalizeItems opts)
  have hcovinit : ∀ nm, nm ∈ (normalizeItems opts).map Item.name →
      nm ∈ (initTally (normalizeItems opts)).map Prod.fst := by
    intro nm h
    exact (initTally_keys_mem (normalizeItems opts) nm).mpr h
  have hinitsum : ((initTally (normalizeItems opts)).map Prod.snd).sum = 0 := by
    apply List.sum_eq_zero
    intro x hx
    obtain ⟨p, hp, he⟩ := List.mem_map.mp hx
    rw [← he]
    exact initTally_values (normalizeItems opts) p hp
  obtain ⟨hkeys, hsum⟩ := foldl_simStep_props (normalizeItems opts) hne us
    (initTally (normalizeItems opts)) hus hndinit hcovinit
  refine ⟨?_, initTally_values (normalizeItems opts),
    fun p _ => Nat.zero_le _, ?_⟩
  · intro nm
    rw [htal, hkeys]
    by_cases hmem : nm ∈ (normalizeItems opts).map Item.name
    · rw [if_pos hmem]
      exact List.count_eq_one_of_mem hndinit
        ((initTally_keys_mem (normalizeItems opts) nm).mpr hmem)
    · rw [if_neg hmem]
      apply List.count_eq_zero_of_not_mem
      intro hc
      exact hmem ((initTally_keys_mem (normalizeItems opts) nm).mp hc)
  · rw [htal, hsum, hinitsum, zero_add]

/-- Concrete two-option row list for the C5 and C6 witnesses. -/
def wOptsAB : List RawOption := [⟨nmA, JSNum.num 1⟩, ⟨nmB, JSNum.num 1⟩]

/-- C5's theorem applied to two options and an empty trial sequence. -/
theorem C5_witness :
    ((initTally (normalizeItems wOptsAB)).map Prod.snd).sum
      = ([] : List ℚ).length :=
  (C5_tally_invariants wOptsAB [] (initTally (normalizeItems wOptsAB))
    (by simp [wOptsAB]) (by simp) rfl).2.2.2

/-- C6: with fewer than two options `runSimulation` signals the
validation failure (`none`) for every draw sequence: no trial runs, the
Sampler is never consulted and no tally is produced. -/
theorem C6_too_few_items (opts : List RawOption) (us : List ℚ)
    (h : opts.length < 2) :
    runSimulation opts us = none := by
  have hlt : (normalizeItems opts).length < 2 := by
    simpa [normalizeItems] using h
  rw [runSimulation, runTrials, if_pos hlt]

/-- C6's theorem applied to a single option and a non-trivial draw
sequence. -/
theorem C6_witness :
    runSimulation [⟨nmA, JSNum.num 1⟩] [2 / 3, 1 / 2] = none :=
  C6_too_few_items [⟨nmA, JSNum.num 1⟩] [2 / 3, 1 / 2] (by simp)

/-! ### Claim C7 -/

/-- The heap-threaded loop visits the same weights as the pure loop on
the dereferenced items. -/
lemma findCrossH_agrees (h : Heap) : ∀ (addrs : List ℕ) (r : JSNum),
    (findCrossH h addrs r).map h = findCross (addrs.map h) r := by
  intro addrs
  induction addrs with
  | nil => intro r; rfl
  | cons a t ih =>
    intro r
    simp only [findCrossH, findCross, List.map_cons]
    by_cases hc : JSNum.lt (JSNum.sub r (h a).weight) (JSNum.num 0) = true
    · simp [hc]
    · simp only [hc, Bool.false_eq_true, if_neg, not_false_iff]
      exact ih _

lemma weightedRandomH_snd (h : Heap) (addrs : List ℕ) (u : ℚ) :
    (weightedRandomH h addrs u).2 = h := by
  simp only [weightedRandomH]
  split
  · rfl
  · split
    · rfl
    · split <;> rfl

/-- The heap-threaded Sampler selects exactly the reference of the item
the pure Sampler selects. -/
lemma weightedRandomH_fst (h : Heap) (addrs : List ℕ) (u : ℚ) :
    (weightedRandomH h addrs u).1.map h
      = weightedRandom (addrs.map h) u := by
  have hsum : sumW (addrs.map h)
      = addrs.foldl (fun sum a => JSNum.add sum (h a).weight) (JSNum.num 0) := by
    rw [sumW, List.foldl_map]
  simp only [weightedRandomH, weightedRandom, hsum, List.length_map]
  by_cases h0 : addrs.length = 0
  · rw [if_pos h0, if_pos h0]
    rfl
  · rw [if_neg h0, if_neg h0]
    by_cases hle : JSNum.le
        (addrs.foldl (fun sum a => JSNum.add sum (h a).weight) (JSNum.num 0))
        (JSNum.num 0) = true
    · rw [if_pos hle, if_pos hle, List.getElem?_map]
    · rw [if_neg hle, if_neg hle]
      have hpure := findCrossH_agrees h addrs
        (JSNum.mul (JSNum.num u)
          (addrs.foldl (fun sum a => JSNum.add sum (h a).weight)
            (JSNum.num 0)))
      rcases hfc : findCrossH h addrs
          (JSNum.mul (JSNum.num u)
            (addrs.foldl (fun sum a => JSNum.add sum (h a).weight)
              (JSNum.num 0))) with _ | a
      · have hfp : findCross (List.map h addrs)
            (JSNum.mul (JSNum.num u)
              (addrs.foldl (fun sum a => JSNum.add sum (h a).weight)
                (JSNum.num 0))) = none := by
          rw [← hpure, hfc]
          rfl
        rw [hfp, List.getElem?_map]
      · have hfp : findCross (List.map h addrs)
            (JSNum.mul (JSNum.num u)
              (addrs.foldl (fun sum a => JSNum.add sum (h a).weight)
                (JSNum.num 0))) = some (h a) := by
          rw [← hpure, hfc]
          rfl
        rw [hfp]
        rfl

lemma initTallyH_agrees (h : Heap) (addrs : List ℕ) :
    initTallyH h addrs = initTally (addrs.map h) := by
  rw [initTallyH, initTally, List.foldl_map]

lemma simStepH_agrees (h : Heap) (addrs : List ℕ)
    (m : List (String × ℕ)) (u : ℚ) :
    simStepH addrs (m, h) u = (simStep (addrs.map h) m u, h) := by
  have hsnd := weightedRandomH_snd h addrs u
  have hfst := weightedRandomH_fst h addrs u
  rcases hW : weightedRandomH h addrs u with ⟨o, h2⟩
  rw [hW] at hsnd hfst
  simp only at hsnd
  rw [hsnd] at hW
  rcases o with _ | a
  · have hwr : weightedRandom (addrs.map h) u = none := by
      rw [← hfst]
      rfl
    simp only [simStepH, hW, simStep, hwr]
  · have hwr : weightedRandom (addrs.map h) u = some (h a) := by
      rw [← hfst]
      rfl
    simp only [simStepH, hW, simStep, hwr]

lemma foldl_simStepH_agrees (h : Heap) (addrs : List ℕ) :
    ∀ (us : List ℚ) (m : List (String × ℕ)),
      us.foldl (simStepH addrs) (m, h)
        = (us.foldl (simStep (addrs.map h)) m, h) := by
  intro us
  induction us with
  | nil => intro m; rfl
  | cons u ut ih =>
    intro m
    rw [List.foldl_cons, List.foldl_cons, simStepH_agrees, ih]

lemma runTrialsH_eq (h : Heap) (addrs : List ℕ) (us : List ℚ) :
    runTrialsH h addrs us = (runTrials (addrs.map h) us, h) := by
  simp only [runTrialsH, runTrials, List.length_map]
  by_cases hlt : addrs.length < 2
  · rw [if_pos hlt, if_pos hlt]
  · rw [if_neg hlt, if_neg hlt, foldl_simStepH_agrees, initTallyH_agrees]

/-- C7: neither the Sampler nor the Trial Runner mutates its input.  In
the heap-threaded re-translation of src/main.js (option objects passed by
reference), both calls return the very heap they were given — the list
elements are unchanged — and they compute exactly the winner reference /
tally that the pure embedding computes on the dereferenced items. -/
theorem C7_no_mutation (h : Heap) (addrs : List ℕ) (u : ℚ)
    (us : List ℚ) :
    (weightedRandomH h addrs u).2 = h
      ∧ (runTrialsH h addrs us).2 = h
      ∧ (weightedRandomH h addrs u).1.map h = weightedRandom (addrs.map h) u
      ∧ (runTrialsH h addrs us).1 = runTrials (addrs.map h) us := by
  refine ⟨weightedRandomH_snd h addrs u, ?_,
    weightedRandomH_fst h addrs u, ?_⟩
  · rw [runTrialsH_eq]
  · rw [runTrialsH_eq]

end Roulette
